import Mathlib

/-!
Shallow embedding of `wordle.py` (dstruthers/wordle-python).

Conventions of the embedding:
* Python strings are modelled as `List Char`.
* The Python dict produced by `letter_frequencies` is modelled as a total
  function `Char → Nat`; a letter absent from the dict corresponds to the
  value 0 (every letter actually stored in the dict has a count ≥ 1, so the
  two representations have the same lookups on every letter the program reads).
* `functools.reduce` with no initializer raises `TypeError` on an empty
  sequence; every spot where that can happen is modelled with `Option`
  (`none` = the unhandled exception).
* `word[i]` is modelled with `List.get?`; an out-of-range index (impossible
  while bank words and hint sequences share the game's fixed word length)
  makes the filter drop the word, where Python would raise.
-/

/-- Enumeration `Hint` from the source: `YES` = exact match (green),
`MOVE` = present elsewhere (yellow), `NO` = absent (gray). -/
inductive Hint where
  | YES : Hint
  | MOVE : Hint
  | NO : Hint
deriving DecidableEq, Repr

/-- Embedding of `letter_frequencies(words)`: starting from the empty dict,
each word increments the counter of each of its distinct letters by one.
Iterating over `set(word)` and incrementing each letter once has, per lookup
`c`, exactly the effect recorded here. -/
def letter_frequencies (words : List (List Char)) : Char → Nat :=
  words.foldl (fun m word => fun c => if word.contains c then m c + 1 else m c) (fun _ => 0)

/-- Embedding of the inner `evaluate(g, s)` of `Game.respond`: `g` is the
guessed letter, `s` the solution letter at the same position, and the `MOVE`
test searches the whole solution (`self.solution.find(g) > -1`). -/
def evaluate (solution : List Char) (g : Char) (s : Char) : Hint × Char :=
  if g = s then (Hint.YES, g)
  else if solution.contains g then (Hint.MOVE, g)
  else (Hint.NO, g)

/-- Embedding of `Game.respond(guess)`: `zip(guess, self.solution)` mapped
through `evaluate` (so a length mismatch silently truncates, as `zip` does). -/
def respond (solution : List Char) (guess : List Char) : List (Hint × Char) :=
  (guess.zip solution).map (fun p => evaluate solution p.1 p.2)

/-- Embedding of the inner `score(word)` of `Game.next_guess`:
`reduce(add, [freqs[letter] for letter in set(word)])`, which raises on an
empty word (empty sequence for `reduce`), hence the `Option`. The sum over
`set(word)` is order independent, so summing over `dedup` is the same value. -/
def score (freqs : Char → Nat) (word : List Char) : Option Nat :=
  match word.dedup.map freqs with
  | [] => none
  | x :: xs => some (xs.foldl (· + ·) x)

/-- Total variant of `score`: the sum of the frequencies of the distinct
letters of a word (`score` returns `some` of this exactly on nonempty words). -/
def scoreVal (freqs : Char → Nat) (word : List Char) : Nat :=
  (word.dedup.map freqs).sum

/-- Embedding of the comprehension `[(word, score(word)) for word in self.word_bank]`:
`none` as soon as any `score` raises. -/
def scoreList (freqs : Char → Nat) : List (List Char) → Option (List (List Char × Nat))
  | [] => some []
  | w :: ws =>
    match score freqs w, scoreList freqs ws with
    | some n, some rest => some ((w, n) :: rest)
    | _, _ => none

/-- Embedding of `Game.next_guess()`:
`reduce(lambda a, b: a if a[1] > b[1] else b, score_map)[0]`. The `reduce`
raises on an empty bank (`none`); on a tie (`a[1] > b[1]` false) the reduce
keeps `b`, the later element. -/
def next_guess (bank : List (List Char)) : Option (List Char) :=
  match scoreList (letter_frequencies bank) bank with
  | none => none
  | some [] => none
  | some (p :: ps) => some (ps.foldl (fun a b => if a.2 > b.2 then a else b) p).1

/-- Per-position predicate of `Game.pare_word_bank`: the body of the list
comprehension chosen for hint `h` at position `i` with letter `letter`. -/
def hintOK (i : Nat) (h : Hint) (letter : Char) (word : List Char) : Bool :=
  match h with
  | Hint.YES => word.get? i == some letter
  | Hint.MOVE => word.contains letter
  | Hint.NO => !(word.contains letter)

/-- One iteration of the `for i in range(len(response))` loop body:
`self.word_bank = [word for word in self.word_bank if ...]`. -/
def applyHint (i : Nat) (h : Hint) (letter : Char) (bank : List (List Char)) :
    List (List Char) :=
  bank.filter (hintOK i h letter)

/-- The loop of `Game.pare_word_bank` from position `i` onwards: each round
replaces the bank by the filtered bank and moves to the next position. -/
def pareFrom (bank : List (List Char)) (i : Nat) :
    List (Hint × Char) → List (List Char)
  | [] => bank
  | (h, letter) :: rest => pareFrom (applyHint i h letter bank) (i + 1) rest

/-- Embedding of `Game.pare_word_bank(response)`: run the position loop
starting at index 0. -/
def pare_word_bank (bank : List (List Char)) (response : List (Hint × Char)) :
    List (List Char) :=
  pareFrom bank 0 response

/-- Conjunction of the per-position predicates of a response, starting at
position `i`: the single-pass test equivalent to the sequential filters. -/
def matchesFrom (i : Nat) : List (Hint × Char) → List Char → Bool
  | [], _ => true
  | (h, letter) :: rest, word => hintOK i h letter word && matchesFrom (i + 1) rest word

/-- Embedding of the `solved` computation in `Game.play`:
`reduce(lambda a, b: a and b, [True if h == Hint.YES else False for (h, _) in response])`,
which raises on an empty response (`none`). -/
def allYes (response : List (Hint × Char)) : Option Bool :=
  match response.map (fun p => p.1 == Hint.YES) with
  | [] => none
  | b :: bs => some (bs.foldl (fun a c => a && c) b)

/-- The `Game` dataclass: solution, hint history, guess limit, word bank,
solved flag (field order as in the source). -/
structure Game where
  solution : List Char
  responses : List (List (Hint × Char))
  guess_limit : Nat
  word_bank : List (List Char)
  solved : Bool
deriving DecidableEq, Repr

/-- Outcome of `Game.play()`: `Won` = the "Success" branch, `Lost` = the
"Failure" branch, `Halted` = the `while` condition was false on entry
(initially solved), `Crashed` = an unhandled `TypeError` from a `reduce`
on an empty sequence, `OutOfFuel` = the supplied fuel bound was reached
before the loop stopped. -/
inductive PlayResult where
  | Won : Game → PlayResult
  | Lost : Game → PlayResult
  | Halted : Game → PlayResult
  | Crashed : PlayResult
  | OutOfFuel : Game → PlayResult
deriving DecidableEq, Repr

/-- Embedding of the `Game.play()` loop, with explicit fuel (one unit per
iteration of the `while`): pick a guess, respond, append to the history, set
`solved`, stop on success, stop when the history reaches the guess limit,
otherwise pare the bank and loop. Rendering (`display_response`, `print`) is
I/O and has no effect on the state. -/
def play : Nat → Game → PlayResult
  | 0, g => PlayResult.OutOfFuel g
  | Nat.succ fuel, g =>
    if g.solved then PlayResult.Halted g
    else
      match next_guess g.word_bank with
      | none => PlayResult.Crashed
      | some guess =>
        match allYes (respond g.solution guess) with
        | none => PlayResult.Crashed
        | some solved =>
          if solved then
            PlayResult.Won { g with responses := g.responses ++ [respond g.solution guess],
                                    solved := solved }
          else if (g.responses ++ [respond g.solution guess]).length = g.guess_limit then
            PlayResult.Lost { g with responses := g.responses ++ [respond g.solution guess],
                                     solved := solved }
          else
            play fuel { g with responses := g.responses ++ [respond g.solution guess],
                               solved := solved,
                               word_bank := pare_word_bank g.word_bank
                                 (respond g.solution guess) }

/-- The word "abbey" (the example solution of the source and the spec). -/
def abbey : List Char := ['a', 'b', 'b', 'e', 'y']

/-- The word "table" (the example guess of the spec). -/
def table : List Char := ['t', 'a', 'b', 'l', 'e']

/-- The word "yebba" ("abbey" reversed): same distinct letters as "abbey",
hence the same score against any frequency map. -/
def yebba : List Char := ['y', 'e', 'b', 'b', 'a']

/-- The word "deed" (from the spec's frequency example). -/
def deed : List Char := ['d', 'e', 'e', 'd']

/-! ### Helper lemmas -/

/-- Membership form of `List.contains` on `Char`. -/
lemma contains_iff_mem (l : List Char) (c : Char) : l.contains c = true ↔ c ∈ l :=
  List.elem_iff

/-- Effect of the `letter_frequencies` fold on one lookup, for any starting
accumulator. -/
lemma letter_frequencies_foldl (words : List (List Char)) :
    ∀ (m : Char → Nat) (c : Char),
      (words.foldl (fun m word => fun c => if word.contains c then m c + 1 else m c) m) c
        = m c + words.countP (fun w => w.contains c) := by
  induction words with
  | nil => intro m c; simp
  | cons w ws ih =>
    intro m c
    rw [List.foldl_cons, ih, List.countP_cons]
    cases hc : w.contains c <;> simp [hc] <;> omega

/-- Indexing a zip from indexing the two lists. -/
lemma zip_get?_some {α β : Type} :
    ∀ (l₁ : List α) (l₂ : List β) (i : Nat) (a : α) (b : β),
      l₁.get? i = some a → l₂.get? i = some b → (l₁.zip l₂).get? i = some (a, b) := by
  intro l₁
  induction l₁ with
  | nil => intro l₂ i a b h1; simp at h1
  | cons x xs ih =>
    intro l₂ i a b h1 h2
    cases l₂ with
    | nil => simp at h2
    | cons y ys =>
      cases i with
      | zero =>
        simp only [List.get?] at h1 h2
        cases h1; cases h2; rfl
      | succ n =>
        simp only [List.get?] at h1 h2 ⊢
        exact ih ys n a b h1 h2

/-- Second projection of indexing a zip. -/
lemma zip_get?_snd {α β : Type} :
    ∀ (l₁ : List α) (l₂ : List β) (i : Nat) (p : α × β),
      (l₁.zip l₂).get? i = some p → l₂.get? i = some p.2 := by
  intro l₁
  induction l₁ with
  | nil => intro l₂ i p h; simp [List.zip] at h
  | cons x xs ih =>
    intro l₂ i p h
    cases l₂ with
    | nil => simp [List.zip] at h
    | cons y ys =>
      cases i with
      | zero =>
        simp only [List.zip_cons_cons, List.get?] at h
        cases h; rfl
      | succ n =>
        simp only [List.zip_cons_cons, List.get?] at h ⊢
        exact ih ys n p h

/-- Indexing a response: position `i` of `respond` is `evaluate` of the two
letters at position `i`. -/
lemma respond_get? (solution guess : List Char) (i : Nat) (gi si : Char)
    (hg : guess.get? i = some gi) (hs : solution.get? i = some si) :
    (respond solution guess).get? i = some (evaluate solution gi si) := by
  unfold respond
  rw [List.get?_map, zip_get?_some guess solution i gi si hg hs, Option.map_some']

/-- The sequential filters of `pare_word_bank` equal one filter by the
conjunction of the per-position predicates. -/
lemma pareFrom_eq_filter :
    ∀ (resp : List (Hint × Char)) (bank : List (List Char)) (i : Nat),
      pareFrom bank i resp = bank.filter (matchesFrom i resp) := by
  intro resp
  induction resp with
  | nil =>
    intro bank i
    have h : matchesFrom i [] = fun _ : List Char => true := rfl
    rw [pareFrom, h, List.filter_true]
  | cons p rest ih =>
    intro bank i
    obtain ⟨h, letter⟩ := p
    rw [pareFrom, ih, applyHint, List.filter_filter]
    have hcomm : (fun w => matchesFrom (i + 1) rest w && hintOK i h letter w)
        = matchesFrom i ((h, letter) :: rest) := by
      funext w
      rw [Bool.and_comm]
      rfl
    rw [hcomm]

/-- Paring never invents candidates (helper form). -/
lemma pare_subset (bank : List (List Char)) (response : List (Hint × Char)) :
    pare_word_bank bank response ⊆ bank := by
  rw [pare_word_bank, pareFrom_eq_filter]
  exact List.filter_subset' bank

/-- Per-position characterization of a response entry: the hint paired with
the guessed letter is `YES` exactly on a positional match, `NO` exactly when
the letter is absent from the solution, `MOVE` otherwise. -/
lemma respond_hint_iff (guess solution : List Char) (i : Nat) (gi si : Char)
    (hg : guess.get? i = some gi) (hs : solution.get? i = some si) :
    ∃ h : Hint, (respond solution guess).get? i = some (h, gi) ∧
      (h = Hint.YES ↔ gi = si) ∧
      (h = Hint.NO ↔ gi ∉ solution) ∧
      (h = Hint.MOVE ↔ gi ≠ si ∧ gi ∈ solution) := by
  have hr := respond_get? solution guess i gi si hg hs
  have hsi : si ∈ solution := List.get?_mem hs
  by_cases hgs : gi = si
  · refine ⟨Hint.YES, ?_, iff_of_true rfl hgs, ?_, ?_⟩
    · rw [hr]; simp [evaluate, hgs]
    · exact iff_of_false (by simp) (not_not_intro (hgs ▸ hsi))
    · exact iff_of_false (by simp) (fun hx => hx.1 hgs)
  · by_cases hc : gi ∈ solution
    · refine ⟨Hint.MOVE, ?_, iff_of_false (by simp) hgs,
        iff_of_false (by simp) (not_not_intro hc), iff_of_true rfl ⟨hgs, hc⟩⟩
      rw [hr]; simp [evaluate, hgs, hc]
    · refine ⟨Hint.NO, ?_, iff_of_false (by simp) (fun e => hc (e ▸ hsi)),
        iff_of_true rfl hc, iff_of_false (by simp) (fun hx => hc hx.2)⟩
      rw [hr]; simp [evaluate, hgs, hc]

/-! ### Claim C1 -/

/-- C1 (counterexample): for solution "abbey" and guess "table" the code
returns hints [Absent, Present, Exact, Absent, Present] — position 2 holds
'b' in both words, so it is Exact (`YES`), not the Present (`MOVE`) the claim
asserts, and the claimed sequence [Absent, Present, Present, Absent, Present]
is not the result. -/
theorem C1_counterexample :
    (respond abbey table).map Prod.fst
      = [Hint.NO, Hint.MOVE, Hint.YES, Hint.NO, Hint.MOVE] ∧
    (respond abbey table).map Prod.fst
      ≠ [Hint.NO, Hint.MOVE, Hint.MOVE, Hint.NO, Hint.MOVE] := by
  constructor
  · decide
  · decide

/-- C1 (amended): for equal-length guess and solution, position `i` of the
response pairs the guessed letter with a hint that is Exact (`YES`) iff the
letters match, Absent (`NO`) iff the guessed letter occurs nowhere in the
solution, and Present (`MOVE`) otherwise; and for solution "abbey", guess
"table", the hints are [Absent, Present, Exact, Absent, Present]. -/
theorem C1_amended_theorem :
    (∀ (guess solution : List Char) (i : Nat) (gi si : Char),
      guess.length = solution.length →
      guess.get? i = some gi → solution.get? i = some si →
      ∃ h : Hint, (respond solution guess).get? i = some (h, gi) ∧
        (h = Hint.YES ↔ gi = si) ∧
        (h = Hint.NO ↔ gi ∉ solution) ∧
        (h = Hint.MOVE ↔ gi ≠ si ∧ gi ∈ solution)) ∧
    (respond abbey table).map Prod.fst
      = [Hint.NO, Hint.MOVE, Hint.YES, Hint.NO, Hint.MOVE] := by
  constructor
  · intro guess solution i gi si _ hg hs
    exact respond_hint_iff guess solution i gi si hg hs
  · decide

/-- C1 (witness): the amended characterization evaluated at guess "table",
solution "abbey", position 2 (letters 'b' and 'b'). -/
theorem C1_witness :
    ∃ h : Hint, (respond abbey table).get? 2 = some (h, 'b') ∧
      (h = Hint.YES ↔ 'b' = 'b') ∧
      (h = Hint.NO ↔ 'b' ∉ abbey) ∧
      (h = Hint.MOVE ↔ 'b' ≠ 'b' ∧ 'b' ∈ abbey) :=
  C1_amended_theorem.1 table abbey 2 'b' 'b' rfl rfl rfl

/-! ### Claim C4 -/

/-- C4 (counterexample): `respond` with the five-letter solution "abbey" and
the two-letter guess "ab" does not fail; it returns the truncated two-entry
hint sequence produced by `zip`. -/
theorem C4_counterexample :
    respond abbey ['a', 'b'] = [(Hint.YES, 'a'), (Hint.YES, 'b')] ∧
    (respond abbey ['a', 'b']).length = 2 := by
  constructor
  · decide
  · decide

/-- C4 (amended): for any guess and solution, `respond` always returns a hint
sequence of length `min (guess.length) (solution.length)`; a length mismatch
is silently truncated by `zip`, and no InvalidInput error exists in the code. -/
theorem C4_amended_theorem (solution guess : List Char) :
    (respond solution guess).length = min guess.length solution.length := by
  rw [respond, List.length_map, List.length_zip]

/-! ### Claim C5 -/

/-- C5: `letter_frequencies` sends each letter to the number of words of the
list that contain it at least once (one contribution per word, however often
the letter repeats inside the word); the empty list yields the empty map
(every letter at count zero), and the spec's example bank ["abbey", "deed"]
gives 'b' ↦ 1, 'e' ↦ 2, 'd' ↦ 1. -/
theorem C5_letter_frequencies :
    (∀ (words : List (List Char)) (c : Char),
      letter_frequencies words c = words.countP (fun w => w.contains c)) ∧
    (∀ c : Char, letter_frequencies [] c = 0) ∧
    letter_frequencies [abbey, deed] 'b' = 1 ∧
    letter_frequencies [abbey, deed] 'e' = 2 ∧
    letter_frequencies [abbey, deed] 'd' = 1 := by
  refine ⟨?_, fun c => rfl, by decide, by decide, by decide⟩
  intro words c
  rw [letter_frequencies, letter_frequencies_foldl]
  exact Nat.zero_add _

/-! ### Claims C6, C9, C10 -/

/-- C6: paring a word bank against any hint sequence yields a subset of the
bank — filtering never adds a candidate. -/
theorem C6_pare_subset (bank : List (List Char)) (response : List (Hint × Char)) :
    pare_word_bank bank response ⊆ bank :=
  pare_subset bank response

/-- C9: paring an already-pared bank again with the same hint sequence
changes nothing — the filter is idempotent. -/
theorem C9_pare_idempotent (bank : List (List Char)) (response : List (Hint × Char)) :
    pare_word_bank (pare_word_bank bank response) response
      = pare_word_bank bank response := by
  rw [pare_word_bank, pare_word_bank, pareFrom_eq_filter, pareFrom_eq_filter,
    List.filter_filter]
  have h : (fun w => matchesFrom 0 response w && matchesFrom 0 response w)
      = matchesFrom 0 response := by
    funext w
    exact Bool.and_self _
  rw [h]

/-- C10: the pared bank is a sublist of the input bank — surviving words keep
their original relative order and multiplicity, so the iteration order read
by the scorer's tie-break is preserved. -/
theorem C10_pare_sublist (bank : List (List Char)) (response : List (Hint × Char)) :
    (pare_word_bank bank response).Sublist bank := by
  rw [pare_word_bank, pareFrom_eq_filter]
  exact List.filter_sublist bank

/-! ### Claim C7 -/

/-- A word satisfies every per-position predicate of a response built by
mapping `evaluate` over letter pairs whose second components are that word's
letters at the corresponding positions. -/
lemma matchesFrom_evaluate (solution : List Char) :
    ∀ (pairs : List (Char × Char)) (i : Nat),
      (∀ (j : Nat) (p : Char × Char), pairs.get? j = some p →
        solution.get? (i + j) = some p.2) →
      matchesFrom i (pairs.map (fun p => evaluate solution p.1 p.2)) solution = true := by
  intro pairs
  induction pairs with
  | nil => intro i _; rfl
  | cons p rest ih =>
    intro i hpos
    obtain ⟨g, s⟩ := p
    have hs : solution.get? i = some s := by
      have := hpos 0 (g, s) rfl
      simpa using this
    have hrest : ∀ (j : Nat) (q : Char × Char), rest.get? j = some q →
        solution.get? (i + 1 + j) = some q.2 := by
      intro j q hq
      have := hpos (j + 1) q (by simpa using hq)
      have harith : i + (j + 1) = i + 1 + j := by omega
      rwa [harith] at this
    rcases he : evaluate solution g s with ⟨h1, c1⟩
    have hok : hintOK i h1 c1 solution = true := by
      by_cases hgs : g = s
      · rw [evaluate, if_pos hgs] at he
        obtain ⟨rfl, rfl⟩ := Prod.mk.injEq .. ▸ he
        simp only [hintOK]
        rw [hgs, hs]
        simp
      · by_cases hc : solution.contains g = true
        · rw [evaluate, if_neg hgs, if_pos hc] at he
          obtain ⟨rfl, rfl⟩ := Prod.mk.injEq .. ▸ he
          simp only [hintOK]
          exact hc
        · rw [evaluate, if_neg hgs, if_neg hc] at he
          obtain ⟨rfl, rfl⟩ := Prod.mk.injEq .. ▸ he
          simp [hintOK]
          simpa using hc
    have hrec := ih (i + 1) hrest
    rw [List.map_cons, he]
    show (hintOK i h1 c1 solution && matchesFrom (i + 1)
      (rest.map (fun p => evaluate solution p.1 p.2)) solution) = true
    rw [hok, hrec]
    rfl

/-- The true solution passes every filter of the response it generated
(helper form): each Exact/Present/Absent constraint produced by comparing a
guess with the solution is satisfied by the solution itself. -/
lemma solution_mem_pare (solution guess : List Char) (bank : List (List Char))
    (hmem : solution ∈ bank) :
    solution ∈ pare_word_bank bank (respond solution guess) := by
  rw [pare_word_bank, pareFrom_eq_filter]
  refine List.mem_filter.2 ⟨hmem, ?_⟩
  rw [respond]
  refine matchesFrom_evaluate solution (guess.zip solution) 0 ?_
  intro j p hp
  have := zip_get?_snd guess solution j p hp
  simpa using this

/-- C7: if the bank contains the solution and the guess has the solution's
length, paring the bank against the hint sequence for that guess keeps the
solution in the bank. -/
theorem C7_solution_survives (solution guess : List Char) (bank : List (List Char))
    (hmem : solution ∈ bank) (hlen : guess.length = solution.length) :
    solution ∈ pare_word_bank bank (respond solution guess) :=
  solution_mem_pare solution guess bank hmem

/-- C7 (witness): with bank ["abbey", "table"], solution "abbey" and guess
"table", the solution survives the paring. -/
theorem C7_witness : abbey ∈ pare_word_bank [abbey, table] (respond abbey table) :=
  C7_solution_survives abbey table [abbey, table] (by decide) rfl

/-! ### Scoring and selection -/

/-- A left fold of addition over `Nat` is the start value plus the list sum. -/
lemma foldl_add_eq : ∀ (xs : List Nat) (x : Nat), xs.foldl (· + ·) x = x + xs.sum := by
  intro xs
  induction xs with
  | nil => intro x; simp
  | cons y ys ih =>
    intro x
    rw [List.foldl_cons, ih, List.sum_cons]
    omega

/-- On a nonempty word, `score` succeeds and returns `scoreVal`. -/
lemma score_eq_scoreVal (freqs : Char → Nat) (w : List Char) (hw : w ≠ []) :
    score freqs w = some (scoreVal freqs w) := by
  have hd : w.dedup ≠ [] := fun hnil => hw ((List.dedup_eq_nil w).mp hnil)
  obtain ⟨y, ys, hys⟩ := List.exists_cons_of_ne_nil hd
  rw [score, scoreVal, hys, List.map_cons]
  show some ((ys.map freqs).foldl (· + ·) (freqs y)) = some ((freqs y :: ys.map freqs).sum)
  rw [foldl_add_eq, List.sum_cons]

/-- When every word of the bank is nonempty, the score comprehension
succeeds and pairs each word with its `scoreVal`. -/
lemma scoreList_eq (freqs : Char → Nat) :
    ∀ (bank : List (List Char)), (∀ w ∈ bank, w ≠ []) →
      scoreList freqs bank = some (bank.map (fun w => (w, scoreVal freqs w))) := by
  intro bank
  induction bank with
  | nil => intro _; rfl
  | cons w ws ih =>
    intro hw
    rw [scoreList, score_eq_scoreVal freqs w (hw w (List.mem_cons_self w ws)),
      ih (fun v hv => hw v (List.mem_cons_of_mem w hv)), List.map_cons]

/-- The reduce of `next_guess` keeps the accumulator only on a strictly
greater score, so it lands on the last element attaining the maximum: the
list splits around the result, every element is bounded by the result's
score, and everything after the result scores strictly less. -/
lemma foldl_pick_last_max (ps : List (List Char × Nat)) :
    ∀ (p : List Char × Nat),
      ∃ pre post,
        p :: ps = pre ++ (ps.foldl (fun a b => if a.2 > b.2 then a else b) p) :: post ∧
        (∀ q ∈ p :: ps, q.2 ≤ (ps.foldl (fun a b => if a.2 > b.2 then a else b) p).2) ∧
        (∀ q ∈ post, q.2 < (ps.foldl (fun a b => if a.2 > b.2 then a else b) p).2) := by
  induction ps with
  | nil =>
    intro p
    refine ⟨[], [], rfl, ?_, ?_⟩
    · intro q hq
      rcases List.mem_cons.mp hq with h | h
      · rw [List.foldl_nil, h]
      · exact absurd h (List.not_mem_nil q)
    · intro q hq
      exact absurd hq (List.not_mem_nil q)
  | cons q qs ih =>
    intro p
    rw [List.foldl_cons]
    by_cases hpq : p.2 > q.2
    · rw [if_pos hpq]
      obtain ⟨pre, post, hdec, hle, hlt⟩ := ih p
      cases pre with
      | nil =>
        rw [List.nil_append] at hdec
        injection hdec with hr hpost
        refine ⟨[], q :: post, ?_, ?_, ?_⟩
        · rw [List.nil_append, ← hr, ← hpost]
        · intro x hx
          rcases List.mem_cons.mp hx with h | hx2
          · rw [h, ← hr]
          · rcases List.mem_cons.mp hx2 with h | hx3
            · rw [h, ← hr]
              exact le_of_lt hpq
            · exact hle x (List.mem_cons_of_mem p hx3)
        · intro x hx
          rcases List.mem_cons.mp hx with h | hx2
          · rw [h, ← hr]
            exact hpq
          · exact hlt x hx2
      | cons p0 pre1 =>
        rw [List.cons_append] at hdec
        injection hdec with hp0 hqs
        refine ⟨p :: q :: pre1, post, ?_, ?_, ?_⟩
        · rw [List.cons_append, List.cons_append, ← hqs]
        · intro x hx
          rcases List.mem_cons.mp hx with h | hx2
          · rw [h]
            exact hle p (List.mem_cons_self p qs)
          · rcases List.mem_cons.mp hx2 with h | hx3
            · rw [h]
              exact le_of_lt (lt_of_lt_of_le hpq (hle p (List.mem_cons_self p qs)))
            · exact hle x (List.mem_cons_of_mem p hx3)
        · exact hlt
    · rw [if_neg hpq]
      have hple : p.2 ≤ q.2 := le_of_not_lt hpq
      obtain ⟨pre, post, hdec, hle, hlt⟩ := ih q
      refine ⟨p :: pre, post, ?_, ?_, ?_⟩
      · rw [List.cons_append, ← hdec]
      · intro x hx
        rcases List.mem_cons.mp hx with h | hx2
        · rw [h]
          exact le_trans hple (hle q (List.mem_cons_self q qs))
        · exact hle x hx2
      · exact hlt

/-- Characterization of `next_guess` on a nonempty bank of nonempty words:
it returns the last word of maximum score — the bank splits around the
returned word, no word scores higher, and every later word scores strictly
lower. -/
lemma next_guess_spec (bank : List (List Char)) (hne : bank ≠ [])
    (hw : ∀ w ∈ bank, w ≠ []) :
    ∃ w pre post, next_guess bank = some w ∧ bank = pre ++ w :: post ∧
      (∀ v ∈ bank, scoreVal (letter_frequencies bank) v
        ≤ scoreVal (letter_frequencies bank) w) ∧
      (∀ v ∈ post, scoreVal (letter_frequencies bank) v
        < scoreVal (letter_frequencies bank) w) := by
  obtain ⟨b, bs, rfl⟩ := List.exists_cons_of_ne_nil hne
  have hsl := scoreList_eq (letter_frequencies (b :: bs)) (b :: bs) hw
  have hLdef : (b :: bs).map (fun w => (w, scoreVal (letter_frequencies (b :: bs)) w))
      = (b, scoreVal (letter_frequencies (b :: bs)) b)
        :: bs.map (fun w => (w, scoreVal (letter_frequencies (b :: bs)) w)) :=
    List.map_cons ..
  have hng : next_guess (b :: bs)
      = some ((bs.map (fun w => (w, scoreVal (letter_frequencies (b :: bs)) w))).foldl
          (fun a b => if a.2 > b.2 then a else b)
          (b, scoreVal (letter_frequencies (b :: bs)) b)).1 := by
    simp only [next_guess, hsl, hLdef]
  obtain ⟨pre, post, hdec, hle, hlt⟩ :=
    foldl_pick_last_max (bs.map (fun w => (w, scoreVal (letter_frequencies (b :: bs)) w)))
      (b, scoreVal (letter_frequencies (b :: bs)) b)
  rw [← hLdef] at hdec hle
  have hsnd : ∀ q ∈ (b :: bs).map (fun w => (w, scoreVal (letter_frequencies (b :: bs)) w)),
      q.2 = scoreVal (letter_frequencies (b :: bs)) q.1 := by
    intro q hq
    obtain ⟨v, _, rfl⟩ := List.mem_map.mp hq
    rfl
  have hrmem : ((bs.map (fun w => (w, scoreVal (letter_frequencies (b :: bs)) w))).foldl
        (fun a b => if a.2 > b.2 then a else b)
        (b, scoreVal (letter_frequencies (b :: bs)) b))
      ∈ (b :: bs).map (fun w => (w, scoreVal (letter_frequencies (b :: bs)) w)) := by
    rw [hdec]
    exact List.mem_append_right pre (List.mem_cons_self _ _)
  have hr2 := hsnd _ hrmem
  refine ⟨_, pre.map Prod.fst, post.map Prod.fst, hng, ?_, ?_, ?_⟩
  · have hfst := congrArg (List.map Prod.fst) hdec
    rw [List.map_map] at hfst
    have hid : ∀ (l : List (List Char)), l.map
        (Prod.fst ∘ fun w => (w, scoreVal (letter_frequencies (b :: bs)) w)) = l := by
      intro l
      induction l with
      | nil => rfl
      | cons x xs ihx =>
        rw [List.map_cons, ihx]
        rfl
    rw [hid, List.map_append, List.map_cons] at hfst
    exact hfst
  · intro v hv
    have hmem := List.mem_map_of_mem
      (fun w => (w, scoreVal (letter_frequencies (b :: bs)) w)) hv
    have := hle _ hmem
    rw [hr2] at this
    exact this
  · intro v hv
    obtain ⟨q, hq, rfl⟩ := List.mem_map.mp hv
    have hqL : q ∈ (b :: bs).map (fun w => (w, scoreVal (letter_frequencies (b :: bs)) w)) := by
      rw [hdec]
      exact List.mem_append_right pre (List.mem_cons_of_mem _ hq)
    have hq2 := hsnd q hqL
    have := hlt q hq
    rw [hr2, hq2] at this
    exact this

/-! ### Claim C2 -/

/-- C2 (counterexample): in the bank ["abbey", "yebba"] both words have the
same distinct letters, hence equal scores, yet `next_guess` returns "yebba",
the later of the two tied candidates, not the first one. -/
theorem C2_counterexample :
    scoreVal (letter_frequencies [abbey, yebba]) abbey
      = scoreVal (letter_frequencies [abbey, yebba]) yebba ∧
    next_guess [abbey, yebba] = some yebba ∧
    yebba ≠ abbey := by
  refine ⟨by decide, by decide, by decide⟩

/-- C2 (amended): on a nonempty bank of nonempty words, `next_guess` returns
a word of maximum score, and whenever several candidates share the maximum
score, the one occurring LAST in the bank's iteration order is returned
(every word after the returned one scores strictly lower). -/
theorem C2_amended_theorem (bank : List (List Char)) (hne : bank ≠ [])
    (hw : ∀ w ∈ bank, w ≠ []) :
    ∃ w pre post, next_guess bank = some w ∧ bank = pre ++ w :: post ∧
      (∀ v ∈ bank, scoreVal (letter_frequencies bank) v
        ≤ scoreVal (letter_frequencies bank) w) ∧
      (∀ v ∈ post, scoreVal (letter_frequencies bank) v
        < scoreVal (letter_frequencies bank) w) :=
  next_guess_spec bank hne hw

/-- C2 (witness): the amended selection property evaluated on the concrete
bank ["abbey", "yebba"]. -/
theorem C2_witness :
    ∃ w pre post, next_guess [abbey, yebba] = some w ∧
      [abbey, yebba] = pre ++ w :: post ∧
      (∀ v ∈ [abbey, yebba], scoreVal (letter_frequencies [abbey, yebba]) v
        ≤ scoreVal (letter_frequencies [abbey, yebba]) w) ∧
      (∀ v ∈ post, scoreVal (letter_frequencies [abbey, yebba]) v
        < scoreVal (letter_frequencies [abbey, yebba]) w) :=
  C2_amended_theorem [abbey, yebba] (by decide) (by decide)

/-! ### Claim C3 -/

/-- A session whose word bank has been exhausted: solution "abbey", empty
bank, default guess limit 6. -/
def emptyBankGame : Game :=
  { solution := abbey, responses := [], guess_limit := 6, word_bank := [], solved := false }

/-- C3 (code behaviour at the failing input): on an empty word bank,
`next_guess` is the raising `reduce` over an empty score list (`none`), and
the play loop surfaces the unhandled exception (`Crashed`) — it does not
reach a `Lost` state with an empty-bank indication as the claim requires. -/
theorem C3_empty_bank_crashes :
    next_guess emptyBankGame.word_bank = none ∧
    play 1 emptyBankGame = PlayResult.Crashed := by
  exact ⟨rfl, rfl⟩

/-! ### Claim C8 -/

/-- The `solved` reduce succeeds on any nonempty response. -/
lemma allYes_some (response : List (Hint × Char)) (h : response ≠ []) :
    ∃ b, allYes response = some b := by
  obtain ⟨p, ps, rfl⟩ := List.exists_cons_of_ne_nil h
  exact ⟨_, rfl⟩

/-- A response to a nonempty guess against a nonempty solution is nonempty. -/
lemma respond_ne_nil (solution guess : List Char) (hs : solution ≠ []) (hg : guess ≠ []) :
    respond solution guess ≠ [] := by
  obtain ⟨s, ss, rfl⟩ := List.exists_cons_of_ne_nil hs
  obtain ⟨x, xs, rfl⟩ := List.exists_cons_of_ne_nil hg
  simp [respond]

/-- The play loop, given one fuel unit per remaining allowed round, ends in
`Won` or `Lost` whenever the bank holds the (nonempty) solution, every word
of the bank is nonempty, and the round budget is positive: winning stops the
loop, and otherwise the history grows by one each round until it reaches the
guess limit; the solution surviving every paring keeps the bank nonempty. -/
lemma play_reaches_end :
    ∀ (fuel : Nat) (g : Game), g.solved = false →
      g.solution ∈ g.word_bank → (∀ w ∈ g.word_bank, w ≠ []) →
      g.responses.length + fuel = g.guess_limit → 0 < fuel →
      (∃ g2, play fuel g = PlayResult.Won g2) ∨
      (∃ g2, play fuel g = PlayResult.Lost g2) := by
  intro fuel
  induction fuel with
  | zero =>
    intro g _ _ _ _ hpos
    exact absurd hpos (lt_irrefl 0)
  | succ n ih =>
    intro g hsolved hmem hw hcount _
    have hbank_ne : g.word_bank ≠ [] := List.ne_nil_of_mem hmem
    obtain ⟨w, pre, post, hng, hdec, _, _⟩ := next_guess_spec g.word_bank hbank_ne hw
    have hwmem : w ∈ g.word_bank := by
      rw [hdec]
      exact List.mem_append_right pre (List.mem_cons_self _ _)
    have hwne : w ≠ [] := hw w hwmem
    have hsne : g.solution ≠ [] := hw g.solution hmem
    have hrespne : respond g.solution w ≠ [] := respond_ne_nil g.solution w hsne hwne
    obtain ⟨b, hb⟩ := allYes_some (respond g.solution w) hrespne
    simp only [play, hsolved, Bool.false_eq_true, if_false, hng, hb]
    cases b with
    | true =>
      exact Or.inl ⟨_, rfl⟩
    | false =>
      simp only [Bool.false_eq_true, if_false]
      by_cases hlim : (g.responses ++ [respond g.solution w]).length = g.guess_limit
      · simp only [if_pos hlim]
        exact Or.inr ⟨_, rfl⟩
      · simp only [if_neg hlim]
        have hlen1 : (g.responses ++ [respond g.solution w]).length
            = g.responses.length + 1 := by
          simp
        refine ih _ rfl (solution_mem_pare g.solution w g.word_bank hmem) ?_ ?_ ?_
        · intro v hv
          exact hw v (pare_subset g.word_bank (respond g.solution w) hv)
        · show (g.responses ++ [respond g.solution w]).length + n = g.guess_limit
          rw [hlen1]
          omega
        · rw [hlen1] at hlim
          omega

/-- C8: a session whose (nonempty-word) bank contains the solution, started
with an empty history, an unset solved flag, and a positive guess limit,
terminates in `Won` or `Lost` within `guess_limit` rounds — one fuel unit
per allowed round suffices, so the loop never runs unboundedly. -/
theorem C8_play_terminates (g : Game) (hsolved : g.solved = false)
    (hresp : g.responses = []) (hlim : 1 ≤ g.guess_limit)
    (hmem : g.solution ∈ g.word_bank) (hw : ∀ w ∈ g.word_bank, w ≠ []) :
    (∃ g2, play g.guess_limit g = PlayResult.Won g2) ∨
    (∃ g2, play g.guess_limit g = PlayResult.Lost g2) :=
  play_reaches_end g.guess_limit g hsolved hmem hw (by rw [hresp]; simp) hlim

/-- A one-round winnable session: solution "a", bank ["a"], limit 1. -/
def wonGame : Game :=
  { solution := ['a'], responses := [], guess_limit := 1,
    word_bank := [['a']], solved := false }

/-- C8 (witness): the termination theorem evaluated on the concrete
one-round session. -/
theorem C8_witness :
    (∃ g2, play wonGame.guess_limit wonGame = PlayResult.Won g2) ∨
    (∃ g2, play wonGame.guess_limit wonGame = PlayResult.Lost g2) :=
  C8_play_terminates wonGame rfl rfl (by decide) (by decide) (by decide)
